import Mathlib

/-!
Shallow embedding of the `spatial` crate: 3D vectors, rotation quaternions
and rigid-body poses over the real numbers (idealising the floating-point
scalar type), following `src/vector.rs`, `src/quaternion.rs` and
`src/pose.rs`. Each definition mirrors the corresponding Rust function.
-/

namespace Spatial

/-- The type-defined epsilon threshold (`T::epsilon()` for `f64`, which is
`2^-52`), used by the checked paths. -/
noncomputable def epsilon : ℝ := 1 / 2 ^ 52

/-- `Vector<T>` from `src/vector.rs`: fields `x`, `y`, `z`. -/
@[ext]
structure Vector where
  x : ℝ
  y : ℝ
  z : ℝ

namespace Vector

/-- `Vector::new(x, y, z)`. -/
def new (x y z : ℝ) : Vector := ⟨x, y, z⟩

/-- `Vector::zero()`. -/
def zero : Vector := ⟨0, 0, 0⟩

/-- `Vector::unit_x()`. -/
def unit_x : Vector := ⟨1, 0, 0⟩

/-- `Vector::unit_y()`. -/
def unit_y : Vector := ⟨0, 1, 0⟩

/-- `Vector::unit_z()`. -/
def unit_z : Vector := ⟨0, 0, 1⟩

/-- Componentwise `Add for Vector<T>`. -/
def add (a b : Vector) : Vector := ⟨a.x + b.x, a.y + b.y, a.z + b.z⟩

/-- Componentwise `Sub for Vector<T>`. -/
def sub (a b : Vector) : Vector := ⟨a.x - b.x, a.y - b.y, a.z - b.z⟩

/-- Componentwise `Neg for Vector<T>`. -/
def neg (a : Vector) : Vector := ⟨-a.x, -a.y, -a.z⟩

/-- `Mul<U> for Vector<T>`: scalar multiplication on the right. -/
def smul (a : Vector) (s : ℝ) : Vector := ⟨a.x * s, a.y * s, a.z * s⟩

/-- `Div<U> for Vector<T>`: componentwise division by a scalar. -/
noncomputable def divScalar (a : Vector) (s : ℝ) : Vector :=
  ⟨a.x / s, a.y / s, a.z / s⟩

/-- `Vector::dot`. -/
def dot (a b : Vector) : ℝ := a.x * b.x + a.y * b.y + a.z * b.z

/-- `Vector::cross`. -/
def cross (a b : Vector) : Vector :=
  ⟨a.y * b.z - a.z * b.y, a.z * b.x - a.x * b.z, a.x * b.y - a.y * b.x⟩

/-- `Vector::norm`: square root of the sum of squared components. -/
noncomputable def norm (a : Vector) : ℝ :=
  Real.sqrt (a.x * a.x + a.y * a.y + a.z * a.z)

/-- `Vector::normalized_checked`: `None` when the norm is below the
type-defined epsilon, otherwise `Some(self / norm)`. -/
noncomputable def normalized_checked (a : Vector) : Option Vector :=
  if a.norm < epsilon then none else some (a.divScalar a.norm)

end Vector

/-- `Quaternion<T>` from `src/quaternion.rs`: fields `w`, `i`, `j`, `k`. -/
@[ext]
structure Quaternion where
  w : ℝ
  i : ℝ
  j : ℝ
  k : ℝ

namespace Quaternion

/-- `Quaternion::identity()`: `w = 1`, `i = j = k = 0`. -/
def identity : Quaternion := ⟨1, 0, 0, 0⟩

/-- `Quaternion::from_angle_axis`: normalize the axis through the checked
path; a degenerate axis yields the identity. -/
noncomputable def from_angle_axis (angle : ℝ) (axis : Vector) : Quaternion :=
  match axis.normalized_checked with
  | some normalized =>
      let half := angle / (1 + 1)
      ⟨Real.cos half, normalized.x * Real.sin half, normalized.y * Real.sin half,
        normalized.z * Real.sin half⟩
  | none => identity

/-- `Quaternion::into_angle_axis`: clamp `w` into `[-1, 1]`, take `acos`,
and guard the near-zero half-angle. -/
noncomputable def into_angle_axis (q : Quaternion) : ℝ × Vector :=
  let half_angle := Real.arccos (min (max q.w (-1)) 1)
  if half_angle < epsilon then (0, Vector.zero)
  else (half_angle * (1 + 1), (Vector.new q.i q.j q.k).divScalar (Real.sin half_angle))

/-- `Quaternion::multiply`: the full Hamilton product. -/
def multiply (p q : Quaternion) : Quaternion :=
  ⟨p.w * q.w - p.i * q.i - p.j * q.j - p.k * q.k,
    p.w * q.i + p.i * q.w + p.j * q.k - p.k * q.j,
    p.w * q.j - p.i * q.k + p.j * q.w + p.k * q.i,
    p.w * q.k + p.i * q.j - p.j * q.i + p.k * q.w⟩

/-- `Quaternion::dot`: componentwise dot product. -/
def dot (p q : Quaternion) : ℝ :=
  p.w * q.w + p.i * q.i + p.j * q.j + p.k * q.k

/-- `Quaternion::rotate`: the closed-form expansion used in the source. -/
def rotate (q : Quaternion) (v : Vector) : Vector :=
  let prep_x := q.i * q.j * v.y + q.i * q.k * v.z + q.j * q.w * v.z - q.k * q.w * v.y
  let result_x := prep_x + prep_x + (q.i * q.i - q.j * q.j - q.k * q.k + q.w * q.w) * v.x
  let prep_y := q.i * q.j * v.x - q.i * q.w * v.z + q.j * q.k * v.z + q.k * q.w * v.x
  let result_y := prep_y + prep_y + (q.j * q.j - q.i * q.i - q.k * q.k + q.w * q.w) * v.y
  let prep_z := q.i * q.k * v.x + q.i * q.w * v.y + q.j * q.k * v.y - q.j * q.w * v.x
  let result_z := prep_z + prep_z + (q.w * q.w - q.i * q.i - q.j * q.j + q.k * q.k) * v.z
  Vector.new result_x result_y result_z

/-- `Quaternion::inverse`: the conjugate (negate `i`, `j`, `k`, keep `w`). -/
def inverse (q : Quaternion) : Quaternion := ⟨q.w, -q.i, -q.j, -q.k⟩

/-- Componentwise `Add for Quaternion<T>`. -/
def add (p q : Quaternion) : Quaternion :=
  ⟨p.w + q.w, p.i + q.i, p.j + q.j, p.k + q.k⟩

/-- Componentwise `Neg for Quaternion<T>`. -/
def neg (q : Quaternion) : Quaternion := ⟨-q.w, -q.i, -q.j, -q.k⟩

/-- `Mul<T> for Quaternion<T>`: scalar multiplication on the right. -/
def smul (q : Quaternion) (s : ℝ) : Quaternion :=
  ⟨q.w * s, q.i * s, q.j * s, q.k * s⟩

/-- `Quaternion::slerp`: shortest-arc spherical interpolation. -/
noncomputable def slerp (a b : Quaternion) (progress : ℝ) : Quaternion :=
  let d := a.dot b
  let ot := if d < 0 then b.neg else b
  let d := if d < 0 then -d else d
  if 1 ≤ d then a
  else
    let d := min d 1
    let omega := Real.arccos d
    let sin_omega := Real.sin omega
    let ca := Real.sin ((1 - progress) * omega) / sin_omega
    let cb := Real.sin (progress * omega) / sin_omega
    (a.smul ca).add (ot.smul cb)

end Quaternion

/-- `Pose<T, R>` from `src/pose.rs`: a translation and a rotation. -/
@[ext]
structure Pose where
  translation : Vector
  rotation : Quaternion

namespace Pose

/-- `Pose::new`. -/
def new (translation : Vector) (rotation : Quaternion) : Pose :=
  ⟨translation, rotation⟩

/-- `Pose::identity()`: zero translation, identity rotation. -/
def identity : Pose := ⟨Vector.zero, Quaternion.identity⟩

/-- `Pose::combine`: `translation + rotation.rotate(other.translation)` and
`rotation * other.rotation`. -/
def combine (p q : Pose) : Pose :=
  ⟨p.translation.add (p.rotation.rotate q.translation),
    p.rotation.multiply q.rotation⟩

/-- `Pose::apply_to`: `translation + rotation.rotate(vector)`. -/
def apply_to (p : Pose) (v : Vector) : Vector :=
  p.translation.add (p.rotation.rotate v)

/-- `Pose::inverse`: conjugate rotation, rotated negated translation. -/
def inverse (p : Pose) : Pose :=
  let inverse_rotation := p.rotation.inverse
  ⟨inverse_rotation.rotate p.translation.neg, inverse_rotation⟩

end Pose

/-- Modelled on the spec's description of `rotate`: the naive conjugation
`q * v * q⁻¹`, with `v` embedded as a pure quaternion (zero scalar part) and
`q⁻¹` taken as the conjugate; the vector part of the product is returned. -/
def rotate_conjugation (q : Quaternion) (v : Vector) : Vector :=
  let vq : Quaternion := ⟨0, v.x, v.y, v.z⟩
  let r := (q.multiply vq).multiply q.inverse
  Vector.new r.i r.j r.k

namespace Quaternion

/-- Conjugation distributes over the Hamilton product: rotating by a product
is rotating by the right factor, then by the left factor. This is a
polynomial identity, valid for all quaternions. -/
lemma rotate_multiply (p q : Quaternion) (v : Vector) :
    (p.multiply q).rotate v = p.rotate (q.rotate v) := by
  ext <;> simp only [rotate, multiply, Vector.new] <;> ring

/-- Rotating by the identity quaternion is the identity map. -/
lemma rotate_identity (v : Vector) : identity.rotate v = v := by
  ext <;> simp [rotate, identity, Vector.new]

/-- The product of a quaternion with its conjugate is the scalar quaternion
carrying its squared norm. -/
lemma multiply_inverse_self (q : Quaternion) :
    q.multiply q.inverse = ⟨q.dot q, 0, 0, 0⟩ := by
  ext <;> simp only [multiply, inverse, dot] <;> ring

/-- The product of a conjugate with its quaternion is the scalar quaternion
carrying its squared norm. -/
lemma inverse_multiply_self (q : Quaternion) :
    q.inverse.multiply q = ⟨q.dot q, 0, 0, 0⟩ := by
  ext <;> simp only [multiply, inverse, dot] <;> ring

/-- Rotation commutes with vector negation. -/
lemma rotate_neg (q : Quaternion) (v : Vector) :
    q.rotate v.neg = (q.rotate v).neg := by
  ext <;> simp only [rotate, Vector.neg, Vector.new] <;> ring

end Quaternion

namespace Vector

/-- A vector plus its negation is the zero vector. -/
lemma add_neg_self (v : Vector) : v.add v.neg = zero := by
  ext <;> simp [add, neg, zero]

/-- The negation of a vector plus the vector is the zero vector. -/
lemma neg_add_self (v : Vector) : v.neg.add v = zero := by
  ext <;> simp [add, neg, zero]

end Vector

/-- The type epsilon is positive. -/
lemma epsilon_pos : 0 < epsilon := by norm_num [epsilon]

namespace Vector

/-- The norm squares back to the sum of squared components. -/
lemma norm_mul_self (v : Vector) :
    v.norm * v.norm = v.x * v.x + v.y * v.y + v.z * v.z :=
  Real.mul_self_sqrt
    (by nlinarith [mul_self_nonneg v.x, mul_self_nonneg v.y, mul_self_nonneg v.z])

/-- Normalizing a vector of nonzero norm gives components whose squares sum
to one. -/
lemma sumsq_divScalar_norm (v : Vector) (h : v.norm ≠ 0) :
    (v.divScalar v.norm).x * (v.divScalar v.norm).x
      + (v.divScalar v.norm).y * (v.divScalar v.norm).y
      + (v.divScalar v.norm).z * (v.divScalar v.norm).z = 1 := by
  have hmul := v.norm_mul_self
  simp only [divScalar]
  field_simp
  linarith [hmul]

/-- Dividing a vector of nonzero norm by its norm yields a unit vector. -/
lemma norm_divScalar_norm (v : Vector) (h : v.norm ≠ 0) :
    (v.divScalar v.norm).norm = 1 := by
  have key := v.sumsq_divScalar_norm h
  rw [norm, key, Real.sqrt_one]

/-- The norm of the concrete vector `(3, 0, 4)` is `5`. -/
lemma norm_new_3_0_4 : (new 3 0 4).norm = 5 := by
  rw [norm, new]
  rw [show (3:ℝ) * 3 + 0 * 0 + 4 * 4 = 5 ^ 2 by norm_num]
  exact Real.sqrt_sq (by norm_num)

/-- The norm of the concrete vector `(1/2^60, 0, 0)` is `1/2^60`. -/
lemma norm_new_small : (new (1 / 2 ^ 60) 0 0).norm = 1 / 2 ^ 60 := by
  rw [norm, new]
  rw [show (1 / 2 ^ 60 : ℝ) * (1 / 2 ^ 60) + 0 * 0 + 0 * 0
      = (1 / 2 ^ 60 : ℝ) ^ 2 by ring]
  exact Real.sqrt_sq (by norm_num)

end Vector

/-- C1: for unit quaternions `p` and `q` and every vector `v`,
`(p.multiply(q)).rotate(v) = p.rotate(q.rotate(v))`: the Hamilton product
composes rotations in the order "apply other's rotation, then this
rotation", consistent with `Pose::combine`. -/
theorem multiply_rotate_composes (p q : Quaternion) (v : Vector)
    (hp : p.dot p = 1) (hq : q.dot q = 1) :
    (p.multiply q).rotate v = p.rotate (q.rotate v) :=
  Quaternion.rotate_multiply p q v

/-- Witness for C1 at `p = q = identity`, `v = (1, 2, 3)`. -/
theorem multiply_rotate_composes_witness :
    Quaternion.identity.dot Quaternion.identity = 1 ∧
      (Quaternion.identity.multiply Quaternion.identity).rotate (Vector.new 1 2 3) =
        Quaternion.identity.rotate (Quaternion.identity.rotate (Vector.new 1 2 3)) :=
  ⟨by norm_num [Quaternion.dot, Quaternion.identity],
    multiply_rotate_composes Quaternion.identity Quaternion.identity (Vector.new 1 2 3)
      (by norm_num [Quaternion.dot, Quaternion.identity])
      (by norm_num [Quaternion.dot, Quaternion.identity])⟩

/-- C2: for a unit quaternion `q` and every vector `v`, the closed-form
`rotate` equals the vector part of the full conjugation `q * v * q⁻¹` with
`v` embedded as a pure quaternion and `q⁻¹` the conjugate. -/
theorem rotate_eq_conjugation (q : Quaternion) (v : Vector) (h : q.dot q = 1) :
    q.rotate v = rotate_conjugation q v := by
  ext <;>
    simp only [Quaternion.rotate, rotate_conjugation, Quaternion.multiply,
      Quaternion.inverse, Vector.new] <;>
    ring

/-- Witness for C2 at `q = identity`, `v = (1, 2, 3)`. -/
theorem rotate_eq_conjugation_witness :
    Quaternion.identity.dot Quaternion.identity = 1 ∧
      Quaternion.identity.rotate (Vector.new 1 2 3) =
        rotate_conjugation Quaternion.identity (Vector.new 1 2 3) :=
  ⟨by norm_num [Quaternion.dot, Quaternion.identity],
    rotate_eq_conjugation Quaternion.identity (Vector.new 1 2 3)
      (by norm_num [Quaternion.dot, Quaternion.identity])⟩

/-- C4: for a unit quaternion `q` and every vector `v`, rotation by the
conjugate undoes rotation by the quaternion:
`q.inverse().rotate(q.rotate(v)) = v`. -/
theorem inverse_rotate_rotate (q : Quaternion) (v : Vector) (h : q.dot q = 1) :
    q.inverse.rotate (q.rotate v) = v := by
  rw [← Quaternion.rotate_multiply, Quaternion.inverse_multiply_self, h]
  exact Quaternion.rotate_identity v

/-- Witness for C4 at `q = identity`, `v = (1, 2, 3)`. -/
theorem inverse_rotate_rotate_witness :
    Quaternion.identity.dot Quaternion.identity = 1 ∧
      Quaternion.identity.inverse.rotate (Quaternion.identity.rotate (Vector.new 1 2 3)) =
        Vector.new 1 2 3 :=
  ⟨by norm_num [Quaternion.dot, Quaternion.identity],
    inverse_rotate_rotate Quaternion.identity (Vector.new 1 2 3)
      (by norm_num [Quaternion.dot, Quaternion.identity])⟩

/-- C3: for a pose `P` with unit-norm rotation, `P.combine(P.inverse())`
and `P.inverse().combine(P)` are both the identity pose (zero translation,
identity rotation), with `inverse` computed as `rotation' = rotation.inverse()`
and `translation' = rotation'.rotate(-translation)`. -/
theorem combine_inverse_identity (p : Pose) (h : p.rotation.dot p.rotation = 1) :
    p.combine p.inverse = Pose.identity ∧ p.inverse.combine p = Pose.identity := by
  constructor
  · have ht : p.rotation.rotate (p.rotation.inverse.rotate p.translation.neg)
        = p.translation.neg := by
      rw [← Quaternion.rotate_multiply, Quaternion.multiply_inverse_self, h]
      exact Quaternion.rotate_identity _
    simp only [Pose.combine, Pose.inverse, Pose.identity]
    rw [ht, Quaternion.multiply_inverse_self, h]
    exact congrArg₂ Pose.mk (Vector.add_neg_self _) rfl
  · simp only [Pose.combine, Pose.inverse, Pose.identity]
    rw [Quaternion.rotate_neg, Quaternion.inverse_multiply_self, h]
    exact congrArg₂ Pose.mk (Vector.neg_add_self _) rfl

/-- Witness for C3 at `P = Pose.identity`. -/
theorem combine_inverse_identity_witness :
    Pose.identity.rotation.dot Pose.identity.rotation = 1 ∧
      (Pose.identity.combine Pose.identity.inverse = Pose.identity ∧
        Pose.identity.inverse.combine Pose.identity = Pose.identity) :=
  ⟨by norm_num [Pose.identity, Quaternion.dot, Quaternion.identity],
    combine_inverse_identity Pose.identity
      (by norm_num [Pose.identity, Quaternion.dot, Quaternion.identity])⟩

/-- C10: `Pose::identity()` is a two-sided identity for `combine`: for every
pose `p`, `identity.combine(p) = p` and `p.combine(identity) = p`. -/
theorem identity_combine (p : Pose) :
    Pose.identity.combine p = p ∧ p.combine Pose.identity = p := by
  constructor <;>
    ext <;>
    simp only [Pose.combine, Pose.identity, Quaternion.rotate, Quaternion.multiply,
      Quaternion.identity, Vector.add, Vector.zero, Vector.new] <;>
    ring

/-- C6 counterexample: the vector `(1/2^60, 0, 0)` is nonzero yet its norm
lies below the type epsilon, so `normalized_checked` returns `None`, against
the claim that every nonzero vector normalizes to `Some`. -/
theorem normalized_checked_counterexample :
    Vector.new (1 / 2 ^ 60) 0 0 ≠ Vector.zero ∧
      (Vector.new (1 / 2 ^ 60) 0 0).normalized_checked = none := by
  constructor
  · intro hcontra
    have := congrArg Vector.x hcontra
    norm_num [Vector.new, Vector.zero] at this
  · rw [Vector.normalized_checked, if_pos]
    rw [Vector.norm_new_small]
    norm_num [epsilon]

/-- C6 (amended): `normalized_checked` returns `None` exactly when the norm
is below the type epsilon (in particular on the zero vector); otherwise it
returns `Some` of the vector divided by its norm, which has norm `1`. -/
theorem normalized_checked_amended (v : Vector) :
    (v.norm < epsilon → v.normalized_checked = none) ∧
      (epsilon ≤ v.norm →
        v.normalized_checked = some (v.divScalar v.norm) ∧
          (v.divScalar v.norm).norm = 1) := by
  constructor
  · intro h
    rw [Vector.normalized_checked, if_pos h]
  · intro h
    have hlt : ¬ v.norm < epsilon := not_lt.mpr h
    have hne : v.norm ≠ 0 := by
      have := epsilon_pos
      intro h0
      rw [h0] at h
      linarith
    exact ⟨by rw [Vector.normalized_checked, if_neg hlt], v.norm_divScalar_norm hne⟩

/-- Witness for C6 (amended) at `v = (3, 0, 4)`, whose norm is `5`. -/
theorem normalized_checked_amended_witness :
    epsilon ≤ (Vector.new 3 0 4).norm ∧
      ((Vector.new 3 0 4).normalized_checked
          = some ((Vector.new 3 0 4).divScalar (Vector.new 3 0 4).norm) ∧
        ((Vector.new 3 0 4).divScalar (Vector.new 3 0 4).norm).norm = 1) :=
  ⟨by rw [Vector.norm_new_3_0_4]; norm_num [epsilon],
    (normalized_checked_amended (Vector.new 3 0 4)).2
      (by rw [Vector.norm_new_3_0_4]; norm_num [epsilon])⟩

/-- C8: `from_angle_axis` returns the identity quaternion whenever the axis
is degenerate (norm below the type epsilon, including the zero vector); the
result is total and well defined there. -/
theorem from_angle_axis_degenerate (angle : ℝ) (axis : Vector)
    (h : axis.norm < epsilon) :
    Quaternion.from_angle_axis angle axis = Quaternion.identity := by
  have hnone : axis.normalized_checked = none := by
    rw [Vector.normalized_checked, if_pos h]
  rw [Quaternion.from_angle_axis, hnone]

/-- Witness for C8 at `angle = 1`, `axis = (0, 0, 0)`. -/
theorem from_angle_axis_degenerate_witness :
    Vector.zero.norm < epsilon ∧
      Quaternion.from_angle_axis 1 Vector.zero = Quaternion.identity :=
  ⟨by norm_num [Vector.norm, Vector.zero, Real.sqrt_zero, epsilon],
    from_angle_axis_degenerate 1 Vector.zero
      (by norm_num [Vector.norm, Vector.zero, Real.sqrt_zero, epsilon])⟩

/-- C9: every quaternion produced by `from_angle_axis` is unit-norm:
`w² + i² + j² + k² = 1` for every angle and every axis, through both the
degenerate branch (identity) and the normalized-axis branch. -/
theorem from_angle_axis_unit (angle : ℝ) (axis : Vector) :
    (Quaternion.from_angle_axis angle axis).dot (Quaternion.from_angle_axis angle axis)
      = 1 := by
  rw [Quaternion.from_angle_axis]
  cases hnc : axis.normalized_checked with
  | none => norm_num [Quaternion.dot, Quaternion.identity]
  | some n =>
      have hn : n.x * n.x + n.y * n.y + n.z * n.z = 1 := by
        by_cases hlt : axis.norm < epsilon
        · rw [Vector.normalized_checked, if_pos hlt] at hnc
          exact absurd hnc (by simp)
        · rw [Vector.normalized_checked, if_neg hlt] at hnc
          have hne : axis.norm ≠ 0 := by
            have := epsilon_pos
            intro h0
            rw [h0] at hlt
            exact hlt (by linarith)
          have := axis.sumsq_divScalar_norm hne
          rw [Option.some_inj] at hnc
          rw [hnc] at this
          exact this
      simp only [Quaternion.dot]
      linear_combination
        (Real.sin (angle / (1 + 1)) * Real.sin (angle / (1 + 1))) * hn
          + Real.sin_sq_add_cos_sq (angle / (1 + 1))

/-- C7: on a unit quaternion, `into_angle_axis` clamps `w` into `[-1, 1]`
before `acos`; when the resulting half-angle is below epsilon it returns
`(0, zero vector)`, and otherwise it returns the angle `2 · half_angle`
together with the axis `(i, j, k)` divided by `sin(half_angle)`. -/
theorem into_angle_axis_spec (q : Quaternion) (h : q.dot q = 1) :
    (Real.arccos (min (max q.w (-1)) 1) < epsilon →
        q.into_angle_axis = (0, Vector.zero)) ∧
      (¬ Real.arccos (min (max q.w (-1)) 1) < epsilon →
        q.into_angle_axis
          = (2 * Real.arccos (min (max q.w (-1)) 1),
            (Vector.new q.i q.j q.k).divScalar
              (Real.sin (Real.arccos (min (max q.w (-1)) 1))))) := by
  constructor
  · intro hh
    simp only [Quaternion.into_angle_axis]
    rw [if_pos hh]
  · intro hh
    simp only [Quaternion.into_angle_axis]
    rw [if_neg hh]
    exact congrArg₂ Prod.mk (by ring) rfl

/-- Witness for C7 at `q = identity`, where the clamped `w` is `1` and the
half-angle `arccos 1 = 0` falls below epsilon. -/
theorem into_angle_axis_spec_witness :
    Quaternion.identity.dot Quaternion.identity = 1 ∧
      (Real.arccos (min (max Quaternion.identity.w (-1)) 1) < epsilon ∧
        Quaternion.identity.into_angle_axis = (0, Vector.zero)) := by
  have hd : Quaternion.identity.dot Quaternion.identity = 1 := by
    norm_num [Quaternion.dot, Quaternion.identity]
  have harc : Real.arccos (min (max Quaternion.identity.w (-1)) 1) < epsilon := by
    rw [show min (max Quaternion.identity.w (-1)) 1 = 1 by
      norm_num [Quaternion.identity]]
    rw [Real.arccos_one]
    exact epsilon_pos
  exact ⟨hd, harc, (into_angle_axis_spec Quaternion.identity hd).1 harc⟩

/-- C5 counterexample: for the unit quaternions `a = (1,0,0,0)` and
`b = (-1,0,0,0)`, the shortest-path sign flip makes `slerp(a, b, 1.0)`
return `a`, whose dot product with `b` is `-1`, not above `1 - 1e-3`. -/
theorem slerp_one_counterexample :
    Quaternion.dot ⟨1, 0, 0, 0⟩ ⟨1, 0, 0, 0⟩ = 1 ∧
      Quaternion.dot ⟨-1, 0, 0, 0⟩ ⟨-1, 0, 0, 0⟩ = 1 ∧
      ¬ (1 - 1 / 1000 : ℝ) <
        (Quaternion.slerp ⟨1, 0, 0, 0⟩ ⟨-1, 0, 0, 0⟩ 1).dot ⟨-1, 0, 0, 0⟩ := by
  refine ⟨by norm_num [Quaternion.dot], by norm_num [Quaternion.dot], ?_⟩
  have hs : Quaternion.slerp ⟨1, 0, 0, 0⟩ ⟨-1, 0, 0, 0⟩ 1
      = (⟨1, 0, 0, 0⟩ : Quaternion) := by
    simp only [Quaternion.slerp, Quaternion.dot, Quaternion.neg]
    norm_num
  rw [hs]
  norm_num [Quaternion.dot]

/-- Scaling by one and adding a zero-scaled quaternion is the identity. -/
lemma Quaternion.smul_one_add_smul_zero (a ot : Quaternion) :
    (a.smul 1).add (ot.smul 0) = a := by
  ext <;> simp [Quaternion.add, Quaternion.smul]

/-- Scaling by zero and adding a one-scaled quaternion yields the latter. -/
lemma Quaternion.smul_zero_add_smul_one (a ot : Quaternion) :
    (a.smul 0).add (ot.smul 1) = ot := by
  ext <;> simp [Quaternion.add, Quaternion.smul]

/-- The sine of `arccos D` is positive when `0 ≤ D < 1`, so the slerp
weights never divide by zero in the interpolating branch. -/
lemma Quaternion.sin_arccos_pos {D : ℝ} (h0 : 0 ≤ D) (h1 : D < 1) :
    0 < Real.sin (Real.arccos D) := by
  have hp : 0 < Real.arccos D := Real.arccos_pos.mpr h1
  have hlt : Real.arccos D < Real.pi := by
    have := Real.arccos_le_pi_div_two.mpr h0
    linarith [Real.pi_pos]
  exact Real.sin_pos_of_pos_of_lt_pi hp hlt

/-- `slerp` at progress `0` returns the first quaternion, for all inputs:
both the early-return branch and the interpolating branch (whose first
weight collapses to `1` and second to `0`) produce `a` exactly. -/
lemma Quaternion.slerp_zero (a b : Quaternion) : Quaternion.slerp a b 0 = a := by
  simp only [Quaternion.slerp]
  by_cases hd : a.dot b < 0
  · simp only [if_pos hd]
    by_cases h1 : (1:ℝ) ≤ -(a.dot b)
    · rw [if_pos h1]
    · rw [if_neg h1]
      have h0 : 0 ≤ -(a.dot b) := by linarith
      have hlt : -(a.dot b) < 1 := not_le.mp h1
      rw [min_eq_left (le_of_lt hlt)]
      have hsin := Quaternion.sin_arccos_pos h0 hlt
      rw [show ((1:ℝ) - 0) * Real.arccos (-(a.dot b)) = Real.arccos (-(a.dot b)) by
        ring]
      rw [show (0:ℝ) * Real.arccos (-(a.dot b)) = 0 by ring]
      rw [Real.sin_zero, div_self (ne_of_gt hsin), zero_div]
      exact Quaternion.smul_one_add_smul_zero a b.neg
  · simp only [if_neg hd]
    by_cases h1 : (1:ℝ) ≤ a.dot b
    · rw [if_pos h1]
    · rw [if_neg h1]
      have h0 : 0 ≤ a.dot b := not_lt.mp hd
      have hlt : a.dot b < 1 := not_le.mp h1
      rw [min_eq_left (le_of_lt hlt)]
      have hsin := Quaternion.sin_arccos_pos h0 hlt
      rw [show ((1:ℝ) - 0) * Real.arccos (a.dot b) = Real.arccos (a.dot b) by ring]
      rw [show (0:ℝ) * Real.arccos (a.dot b) = 0 by ring]
      rw [Real.sin_zero, div_self (ne_of_gt hsin), zero_div]
      exact Quaternion.smul_one_add_smul_zero a b

/-- `slerp` at progress `1` returns `b` when the dot product lies in
`[0, 1)`: no sign flip happens and the second weight collapses to `1`. -/
lemma Quaternion.slerp_one_of_nonneg (a b : Quaternion)
    (hab : 0 ≤ a.dot b) (h1 : a.dot b < 1) :
    Quaternion.slerp a b 1 = b := by
  simp only [Quaternion.slerp, if_neg (not_lt.mpr hab)]
  rw [if_neg (not_le.mpr h1), min_eq_left (le_of_lt h1)]
  have hsin := Quaternion.sin_arccos_pos hab h1
  rw [show ((1:ℝ) - 1) * Real.arccos (a.dot b) = 0 by ring]
  rw [show (1:ℝ) * Real.arccos (a.dot b) = Real.arccos (a.dot b) by ring]
  rw [Real.sin_zero, div_self (ne_of_gt hsin), zero_div]
  exact Quaternion.smul_zero_add_smul_one a b

/-- `slerp` at progress `1` returns `-b` when the dot product lies in
`(-1, 0)`: the shortest-path selection negates `b` before interpolating. -/
lemma Quaternion.slerp_one_of_neg (a b : Quaternion)
    (hneg : a.dot b < 0) (hgt : -1 < a.dot b) :
    Quaternion.slerp a b 1 = b.neg := by
  simp only [Quaternion.slerp, if_pos hneg]
  have h0 : 0 ≤ -(a.dot b) := by linarith
  have hlt : -(a.dot b) < 1 := by linarith
  rw [if_neg (not_le.mpr hlt), min_eq_left (le_of_lt hlt)]
  have hsin := Quaternion.sin_arccos_pos h0 hlt
  rw [show ((1:ℝ) - 1) * Real.arccos (-(a.dot b)) = 0 by ring]
  rw [show (1:ℝ) * Real.arccos (-(a.dot b)) = Real.arccos (-(a.dot b)) by ring]
  rw [Real.sin_zero, div_self (ne_of_gt hsin), zero_div]
  exact Quaternion.smul_zero_add_smul_one a b.neg

/-- C5 (amended): `slerp(a, b, 0.0) = a` holds exactly for all quaternions,
with no hypotheses; for unit quaternions `a`, `b` with non-negative dot
product, `slerp(a, b, 1.0)` has dot product with `b` above `1 - 1e-3`; and
when the dot product lies in `(-1, 0)`, the shortest-path negation makes
`slerp(a, b, 1.0)` equal to `-b`, whose dot product with unit `b` is `-1`. -/
theorem slerp_endpoints_amended (a b : Quaternion) :
    Quaternion.slerp a b 0 = a ∧
      (a.dot a = 1 → b.dot b = 1 → 0 ≤ a.dot b →
        (1 - 1 / 1000 : ℝ) < (Quaternion.slerp a b 1).dot b) ∧
      (b.dot b = 1 → -1 < a.dot b → a.dot b < 0 →
        Quaternion.slerp a b 1 = b.neg ∧
          (Quaternion.slerp a b 1).dot b = -1) := by
  refine ⟨Quaternion.slerp_zero a b, ?_, ?_⟩
  · intro ha hb hab
    by_cases h1 : 1 ≤ a.dot b
    · have hres : Quaternion.slerp a b 1 = a := by
        simp only [Quaternion.slerp, if_neg (not_lt.mpr hab)]
        rw [if_pos h1]
      rw [hres]
      linarith
    · rw [Quaternion.slerp_one_of_nonneg a b hab (not_le.mp h1), hb]
      norm_num
  · intro hb hgt hneg
    have hres := Quaternion.slerp_one_of_neg a b hneg hgt
    refine ⟨hres, ?_⟩
    rw [hres]
    have hdn : (b.neg).dot b = -(b.dot b) := by
      simp only [Quaternion.dot, Quaternion.neg]
      ring
    rw [hdn, hb]

/-- Witness for C5 (amended), exercising the non-negative-dot clause at
`a = b = identity` and the negative-dot clause at `a = identity`,
`b = (-3/5, 4/5, 0, 0)`. -/
theorem slerp_endpoints_amended_witness :
    Quaternion.identity.dot Quaternion.identity = 1 ∧
      0 ≤ Quaternion.identity.dot Quaternion.identity ∧
      Quaternion.slerp Quaternion.identity Quaternion.identity 0
        = Quaternion.identity ∧
      (1 - 1 / 1000 : ℝ) <
        (Quaternion.slerp Quaternion.identity Quaternion.identity 1).dot
          Quaternion.identity ∧
      Quaternion.dot ⟨-(3/5), 4/5, 0, 0⟩ ⟨-(3/5), 4/5, 0, 0⟩ = 1 ∧
      -1 < Quaternion.identity.dot ⟨-(3/5), 4/5, 0, 0⟩ ∧
      Quaternion.identity.dot ⟨-(3/5), 4/5, 0, 0⟩ < 0 ∧
      (Quaternion.slerp Quaternion.identity ⟨-(3/5), 4/5, 0, 0⟩ 1
          = Quaternion.neg ⟨-(3/5), 4/5, 0, 0⟩ ∧
        (Quaternion.slerp Quaternion.identity ⟨-(3/5), 4/5, 0, 0⟩ 1).dot
          ⟨-(3/5), 4/5, 0, 0⟩ = -1) :=
  ⟨by norm_num [Quaternion.dot, Quaternion.identity],
    by norm_num [Quaternion.dot, Quaternion.identity],
    (slerp_endpoints_amended Quaternion.identity Quaternion.identity).1,
    (slerp_endpoints_amended Quaternion.identity Quaternion.identity).2.1
      (by norm_num [Quaternion.dot, Quaternion.identity])
      (by norm_num [Quaternion.dot, Quaternion.identity])
      (by norm_num [Quaternion.dot, Quaternion.identity]),
    by norm_num [Quaternion.dot],
    by norm_num [Quaternion.dot, Quaternion.identity],
    by norm_num [Quaternion.dot, Quaternion.identity],
    (slerp_endpoints_amended Quaternion.identity ⟨-(3/5), 4/5, 0, 0⟩).2.2
      (by norm_num [Quaternion.dot])
      (by norm_num [Quaternion.dot, Quaternion.identity])
      (by norm_num [Quaternion.dot, Quaternion.identity])⟩

end Spatial
